import Mathlib

/-!
Verification of the xadmin client authorization-and-session core.

The development embeds, in Lean, the parts of the repository that the
checked properties speak about:

* the Refresh Coordinator (single-flight token renewal) and its race with
  logout; the coordinator implementation is not shipped under the client
  sources we were given, so it is modelled from the specification text
  (sections 4.1 and 5 of the design document);
* the Capability Predicate (hasAuth / hasGlobalAuth), likewise modelled
  from the specification (section 4.4);
* the Menu Tree Builder (section 4.3), likewise modelled from the
  specification;
* the static route array of src/xadmin-client/src/router/modules/remaining.ts,
  embedded directly from that source file;
* the auth directive of src/xadmin-client/src/directives/auth/index.ts,
  embedded directly from that source file.
-/

/-! ## Credentials and the Refresh Coordinator

Modelled from the spec: the Refresh Coordinator of section 4.1 and the
concurrency model of section 5.  The coordinator implementation is not
present in the given sources; the model follows the specification text:
leader election is decided synchronously at the moment of detecting an
expired credential, followers join a waiter queue, the store is updated
atomically when the single in-flight renewal settles, and a logout that
happens while a renewal is in flight marks the eventual result stale. -/

structure Credential where
  accessToken : String
  refreshToken : String
  accessExpiry : Nat
  refreshExpiry : Nat
deriving DecidableEq, Repr

/-- Outcome observed by one caller of ensureValidAccess. -/
inductive RefreshResult where
  | token : String → RefreshResult
  | sessionExpired : RefreshResult
  | unauthenticated : RefreshResult
deriving DecidableEq, Repr

/-- State of the Refresh Coordinator together with the Credential Store.
`resolved` records, per caller id, the outcome that caller resumed with. -/
structure CoordState where
  cred : Option Credential
  inFlight : Bool
  waiters : List Nat
  networkCalls : Nat
  loggedOut : Bool
  resolved : List (Nat × RefreshResult)
deriving DecidableEq, Repr

def initState (c : Credential) : CoordState :=
  { cred := some c, inFlight := false, waiters := [], networkCalls := 0,
    loggedOut := false, resolved := [] }

/-- Modelled from the spec: one caller enters ensureValidAccess at time
`now`.  A valid access token is returned immediately; an expired refresh
credential fails with SessionExpired and clears the store; otherwise the
first detector becomes leader (issuing the single renewal network call)
and later arrivals join the waiter queue. -/
def arrive (now : Nat) (caller : Nat) (s : CoordState) : CoordState :=
  match s.cred with
  | none => { s with resolved := (caller, RefreshResult.unauthenticated) :: s.resolved }
  | some c =>
    if now < c.accessExpiry then
      { s with resolved := (caller, RefreshResult.token c.accessToken) :: s.resolved }
    else if c.refreshExpiry ≤ now then
      { s with cred := none,
               resolved := (caller, RefreshResult.sessionExpired) :: s.resolved }
    else if s.inFlight then
      { s with waiters := caller :: s.waiters }
    else
      { s with inFlight := true, networkCalls := s.networkCalls + 1,
               waiters := [caller] }

/-- Modelled from the spec: the in-flight renewal settles successfully.
If a logout happened first the result is stale: the store stays cleared
and every waiter resumes Unauthenticated.  Otherwise the store is updated
atomically and every waiter resumes with the new access token. -/
def settleSuccess (newCred : Credential) (s : CoordState) : CoordState :=
  if s.loggedOut then
    { s with inFlight := false, waiters := [],
             resolved := s.waiters.map (fun w => (w, RefreshResult.unauthenticated)) ++ s.resolved }
  else
    { s with cred := some newCred, inFlight := false, waiters := [],
             resolved := s.waiters.map (fun w => (w, RefreshResult.token newCred.accessToken)) ++ s.resolved }

/-- Modelled from the spec: the in-flight renewal fails; treated as
SessionExpired, the store is cleared and all waiters fail uniformly. -/
def settleFailure (s : CoordState) : CoordState :=
  { s with cred := none, inFlight := false, waiters := [],
           resolved := s.waiters.map (fun w => (w, RefreshResult.sessionExpired)) ++ s.resolved }

/-- Modelled from the spec: a logout event clears the Credential Store and
cancels the semantic validity of any in-flight renewal. -/
def doLogout (s : CoordState) : CoordState :=
  { s with cred := none, loggedOut := true }

/-- Process a batch of interleaved callers arriving at time `now`. -/
def runArrivals (now : Nat) (callers : List Nat) (s : CoordState) : CoordState :=
  callers.foldl (fun st c => arrive now c st) s

/-! ## Capability Predicate

Modelled from the spec: section 4.4 and the Capability Set of section 3.
The implementation (router utilities) is not present in the given client
sources, only its callers are; the model follows the specification text:
a Capability Set holds roles, the full permission list, and the mapping
from route name to that route set of required permission codes. -/

structure CapabilitySet where
  roles : List String
  permissions : List String
  defaultAuthsByRoute : List (String × List String)
deriving DecidableEq, Repr

/-- Look up the permission codes scoped to one route name. -/
def routeAuths : List (String × List String) → String → List String
  | [], _ => []
  | (r, cs) :: rest, q => if r = q then cs else routeAuths rest q

/-- Modelled from the spec: hasAuth is true iff the code is present in the
permission set scoped to the currently active route requiredAuthCodes. -/
def hasAuth (cs : CapabilitySet) (activeRoute : String) (code : String) : Bool :=
  code ∈ routeAuths cs.defaultAuthsByRoute activeRoute

/-- Modelled from the spec: hasGlobalAuth is true iff the code is present
anywhere in the full Capability Set, independent of the active route. -/
def hasGlobalAuth (cs : CapabilitySet) (code : String) : Bool :=
  code ∈ cs.permissions

/-! ## The auth directive

Embedded from src/xadmin-client/src/directives/auth/index.ts.  The mounted
hook receives the binding value; a truthy (non-empty) value removes the
element from its parent when hasAuth fails, a falsy value throws an Error.
The DOM parent is modelled as the list of child node ids; the surrounding
hasAuth function lives outside this file in the repository, so it is a
parameter of the model. -/

/-- Result of running the mounted hook: the resulting sibling list of the
parent node, and the thrown error message if any. -/
def authMounted (hasA : String → Bool) (value : String) (el : Nat)
    (siblings : List Nat) : List Nat × Option String :=
  if value ≠ "" then
    (if hasA value then siblings else siblings.erase el, none)
  else
    (siblings, some "[Directive: auth]: need auths!")

/-! ## Menu Tree Builder

Modelled from the spec: section 4.3.  The builder implementation (router
utilities) is not present in the given client sources; the model follows
the specification text step by step: partition into navigable and
permission kinds, reconstruct the forest from parentId links attaching
orphans at the forest root, order sibling groups by ascending rank with a
stable sort, compute the default redirect of an entry as the first
navigable descendant of the rank-ordered depth-first traversal, exclude
directories with no navigable descendant, merge with the static routes by
path with static routes taking precedence, and attach the set of
permission-type child codes as requiredAuthCodes. -/

inductive MenuType where
  | directory : MenuType
  | menu : MenuType
  | permission : MenuType
deriving DecidableEq, Repr

structure MenuNode where
  id : Nat
  parentId : Option Nat
  name : String
  path : String
  rank : Nat
  menuType : MenuType
deriving DecidableEq, Repr

/-- Navigable kinds are directory and menu; permission nodes are gated
operations and never become Route Table Entries. -/
def isNav (n : MenuNode) : Bool :=
  match n.menuType with
  | MenuType.permission => false
  | _ => true

/-- Stable insertion by ascending rank: an element moves past the head
only while the head has a strictly smaller rank, so earlier input stays
first among equal ranks. -/
def insertRank (n : MenuNode) : List MenuNode → List MenuNode
  | [] => [n]
  | m :: ms => if m.rank < n.rank then m :: insertRank n ms else n :: m :: ms

/-- Stable sort of a sibling group by ascending rank. -/
def sortByRank : List MenuNode → List MenuNode
  | [] => []
  | n :: ns => insertRank n (sortByRank ns)

/-- Navigable children of the node with id `pid`, in sibling order. -/
def navChildren (all : List MenuNode) (pid : Nat) : List MenuNode :=
  sortByRank (all.filter (fun m => isNav m && m.parentId == some pid))

/-- Permission-type children of the node with id `pid`. -/
def permChildren (all : List MenuNode) (pid : Nat) : List MenuNode :=
  sortByRank (all.filter (fun m => m.menuType == MenuType.permission && m.parentId == some pid))

/-- The set of permission codes gating the actions contained in the entry
built from node `pid`, represented canonically in rank order. -/
def authCodes (all : List MenuNode) (pid : Nat) : List String :=
  (permChildren all pid).map (fun m => m.name)

/-- A node sits at the forest root when it declares no parent or when its
declared parent is absent from the input set (orphan recovery). -/
def isRoot (all : List MenuNode) (m : MenuNode) : Bool :=
  match m.parentId with
  | none => true
  | some p => !(all.any (fun x => x.id == p))

def rootNodes (all : List MenuNode) : List MenuNode :=
  sortByRank (all.filter (fun m => isNav m && isRoot all m))

/-- A derived Route Table Entry: name, path, rank carried into meta, the
default redirect, the requiredAuthCodes of meta, and the ordered children. -/
inductive RouteEntry where
  | mk : String → String → Nat → Option String → List String → List RouteEntry → RouteEntry

def RouteEntry.name : RouteEntry → String
  | RouteEntry.mk n _ _ _ _ _ => n

def RouteEntry.path : RouteEntry → String
  | RouteEntry.mk _ p _ _ _ _ => p

def RouteEntry.rank : RouteEntry → Nat
  | RouteEntry.mk _ _ r _ _ _ => r

def RouteEntry.redirect : RouteEntry → Option String
  | RouteEntry.mk _ _ _ r _ _ => r

def RouteEntry.requiredAuthCodes : RouteEntry → List String
  | RouteEntry.mk _ _ _ _ a _ => a

def RouteEntry.children : RouteEntry → List RouteEntry
  | RouteEntry.mk _ _ _ _ _ c => c

/-- Name of the first entry of an ordered child list: the redirect target
of an entry that has children, i.e. its first navigable descendant in the
rank-ordered depth-first traversal. -/
def headName : List RouteEntry → Option String
  | [] => none
  | e :: _ => some e.name

/-- Modelled from the spec: build the entry for one navigable node.  The
fuel argument bounds the recursion depth; the top-level call passes the
input length, enough for any forest.  A directory whose pruned child list
is empty has no navigable descendant and is excluded. -/
def buildSub (all : List MenuNode) : Nat → MenuNode → Option RouteEntry
  | 0, _ => none
  | fuel + 1, n =>
    match n.menuType with
    | MenuType.permission => none
    | MenuType.menu =>
      some (RouteEntry.mk n.name n.path n.rank
        (headName ((navChildren all n.id).filterMap (buildSub all fuel)))
        (authCodes all n.id)
        ((navChildren all n.id).filterMap (buildSub all fuel)))
    | MenuType.directory =>
      match (navChildren all n.id).filterMap (buildSub all fuel) with
      | [] => none
      | c :: cs =>
        some (RouteEntry.mk n.name n.path n.rank (headName (c :: cs))
          (authCodes all n.id) (c :: cs))

/-- The forest derived from the backend menu payload. -/
def derive (all : List MenuNode) : List RouteEntry :=
  (rootNodes all).filterMap (buildSub all all.length)

/-- Merge the derived forest with the fixed static routes by path; a
static route always takes precedence on path collision. -/
def mergeByPath (statics derived : List RouteEntry) : List RouteEntry :=
  statics ++ derived.filter (fun d => !(statics.any (fun s => s.path == d.path)))

/-- Modelled from the spec: the full Route Table built from the menu
payload and the fixed static routes. -/
def build (all : List MenuNode) (statics : List RouteEntry) : List RouteEntry :=
  mergeByPath statics (derive all)

mutual

/-- An entry together with all of its descendants. -/
def deepOf : RouteEntry → List RouteEntry
  | RouteEntry.mk n p r rd a c => RouteEntry.mk n p r rd a c :: deepList c

/-- All entries of a table, root entries and descendants alike. -/
def deepList : List RouteEntry → List RouteEntry
  | [] => []
  | e :: es => deepOf e ++ deepList es

end

/-! ## The static routes of remaining.ts

Embedded from src/xadmin-client/src/router/modules/remaining.ts: the login
page, the redirect parent with its wildcard child, the empty full-screen
page, and the account settings page.  The ranks are the ones written in
that file; the nameless redirect parent is modelled with the empty name
and its child carries none in the source, modelled as rank 0. -/

def staticRoutes : List RouteEntry :=
  [RouteEntry.mk "Login" "/login" 10101 none [] [],
   RouteEntry.mk "" "/redirect" 10102 none []
     [RouteEntry.mk "Redirect" "/redirect/:path(.*)" 0 none [] []],
   RouteEntry.mk "Empty" "/empty" 10103 none [] [],
   RouteEntry.mk "AccountSettings" "/account-settings" 104 none [] []]

/-! The concrete three-node payload of the spec scenario. -/

def demoSystem : MenuNode :=
  { id := 1, parentId := none, name := "System", path := "/system", rank := 1,
    menuType := MenuType.directory }

def demoUser : MenuNode :=
  { id := 2, parentId := some 1, name := "SystemUser", path := "/system/user", rank := 1,
    menuType := MenuType.menu }

def demoDept : MenuNode :=
  { id := 3, parentId := some 1, name := "SystemDept", path := "/system/dept", rank := 2,
    menuType := MenuType.menu }

/-- Whether the subtree below a node (following parentId links through the
input set, navigable kinds only) contains a menu-type node within the
given depth bound.  A directory keeps a place in the table exactly when
some chain of navigable children below it ends in a menu node. -/
def reachesMenu (all : List MenuNode) : Nat → MenuNode → Bool
  | 0, n => n.menuType == MenuType.menu
  | fuel + 1, n =>
    n.menuType == MenuType.menu || (navChildren all n.id).any (reachesMenu all fuel)

def toolsDir : MenuNode :=
  { id := 1, parentId := none, name := "Tools", path := "/tools", rank := 1,
    menuType := MenuType.directory }

def toolsPerm : MenuNode :=
  { id := 2, parentId := some 1, name := "tools:add", path := "", rank := 1,
    menuType := MenuType.permission }

def homeMenu : MenuNode :=
  { id := 3, parentId := none, name := "Home", path := "/home", rank := 2,
    menuType := MenuType.menu }

def lostMenu : MenuNode :=
  { id := 1, parentId := some 99, name := "Lost", path := "/lost", rank := 1,
    menuType := MenuType.menu }

def lostDir : MenuNode :=
  { id := 1, parentId := some 99, name := "Lost", path := "/lost", rank := 1,
    menuType := MenuType.directory }

def tieA : MenuNode :=
  { id := 1, parentId := none, name := "A", path := "/a", rank := 1,
    menuType := MenuType.menu }

def tieB : MenuNode :=
  { id := 2, parentId := none, name := "B", path := "/b", rank := 1,
    menuType := MenuType.menu }

/-! ## Static routes versus backend routes -/

/-- Whether the first list of characters starts the second one. -/
def charsStart : List Char → List Char → Bool
  | [], _ => true
  | _ :: _, [] => false
  | a :: as, b :: bs => a == b && charsStart as bs

/-- Whether the first list of characters occurs inside the second one. -/
def charsIn : List Char → List Char → Bool
  | n, [] => n.isEmpty
  | n, c :: cs => charsStart n (c :: cs) || charsIn n cs

/-- Whether the needle occurs as a substring of the haystack. -/
def strIn (needle hay : String) : Bool :=
  charsIn needle.data hay.data

/-- Whether a path looks like an error page: it mentions error, 403, 404
or 500. -/
def errorish (p : String) : Bool :=
  strIn "error" p || strIn "403" p || strIn "404" p || strIn "500" p

/-! ## Theorems -/

/-! Basic stepping lemmas for the coordinator. -/

lemma arrive_follower (now caller : Nat) (s : CoordState) (c : Credential)
    (hc : s.cred = some c) (h1 : c.accessExpiry ≤ now) (h2 : now < c.refreshExpiry)
    (hf : s.inFlight = true) :
    arrive now caller s = { s with waiters := caller :: s.waiters } := by
  simp only [arrive, hc]
  rw [if_neg (Nat.not_lt.mpr h1), if_neg (Nat.not_le.mpr h2), if_pos hf]

lemma arrive_leader (now caller : Nat) (s : CoordState) (c : Credential)
    (hc : s.cred = some c) (h1 : c.accessExpiry ≤ now) (h2 : now < c.refreshExpiry)
    (hf : s.inFlight = false) :
    arrive now caller s =
      { s with inFlight := true, networkCalls := s.networkCalls + 1,
               waiters := [caller] } := by
  simp only [arrive, hc]
  rw [if_neg (Nat.not_lt.mpr h1), if_neg (Nat.not_le.mpr h2),
    if_neg (by rw [hf]; exact Bool.false_ne_true)]

lemma runArrivals_followers (now : Nat) (callers : List Nat) (s : CoordState)
    (c : Credential) (hc : s.cred = some c)
    (h1 : c.accessExpiry ≤ now) (h2 : now < c.refreshExpiry)
    (hf : s.inFlight = true) :
    runArrivals now callers s = { s with waiters := callers.reverse ++ s.waiters } := by
  induction callers generalizing s with
  | nil => simp [runArrivals]
  | cons a rest ih =>
    have hstep : arrive now a s = { s with waiters := a :: s.waiters } :=
      arrive_follower now a s c hc h1 h2 hf
    have hsplit : runArrivals now (a :: rest) s = runArrivals now rest (arrive now a s) := by
      simp [runArrivals, List.foldl_cons]
    rw [hsplit, hstep]
    rw [ih { s with waiters := a :: s.waiters } hc hf]
    simp

/-- C1: single-flight refresh.  Any positive number of concurrent callers
hitting an expired access credential with a still-valid refresh credential
causes exactly one renewal network call, and once the renewal succeeds all
of them resolve to the same new access token (which is the token the store
now holds). -/
theorem single_flight (c newCred : Credential) (now : Nat) (callers : List Nat)
    (hne : callers ≠ []) (h1 : c.accessExpiry ≤ now) (h2 : now < c.refreshExpiry) :
    (settleSuccess newCred (runArrivals now callers (initState c))).networkCalls = 1 ∧
    (settleSuccess newCred (runArrivals now callers (initState c))).cred = some newCred ∧
    ∀ i ∈ callers,
      (i, RefreshResult.token newCred.accessToken) ∈
        (settleSuccess newCred (runArrivals now callers (initState c))).resolved := by
  obtain ⟨a, rest, rfl⟩ : ∃ a rest, callers = a :: rest := by
    cases callers with
    | nil => exact absurd rfl hne
    | cons a rest => exact ⟨a, rest, rfl⟩
  have hstep : runArrivals now (a :: rest) (initState c)
      = runArrivals now rest (arrive now a (initState c)) := by
    simp [runArrivals, List.foldl_cons]
  have hlead : arrive now a (initState c) =
      ({ cred := some c, inFlight := true, waiters := [a], networkCalls := 1,
         loggedOut := false, resolved := [] } : CoordState) := by
    rw [arrive_leader now a (initState c) c rfl h1 h2 rfl]
    rfl
  have hrun : runArrivals now rest
      ({ cred := some c, inFlight := true, waiters := [a], networkCalls := 1,
         loggedOut := false, resolved := [] } : CoordState) =
      ({ cred := some c, inFlight := true, waiters := rest.reverse ++ [a], networkCalls := 1,
         loggedOut := false, resolved := [] } : CoordState) := by
    rw [runArrivals_followers now rest _ c rfl h1 h2 rfl]
  rw [hstep, hlead, hrun]
  refine ⟨rfl, rfl, ?_⟩
  intro i hi
  have hmem : i ∈ rest.reverse ++ [a] := by
    rcases List.mem_cons.mp hi with h | h
    · exact List.mem_append.mpr (Or.inr (by simp [h]))
    · exact List.mem_append.mpr (Or.inl (List.mem_reverse.mpr h))
  show (i, RefreshResult.token newCred.accessToken) ∈
    (rest.reverse ++ [a]).map (fun w => (w, RefreshResult.token newCred.accessToken)) ++ []
  exact List.mem_append.mpr (Or.inl (List.mem_map_of_mem _ hmem))

/-- Witness for C1 at a concrete input: three callers, expired access
token, valid refresh token; the renewal settles with a new credential. -/
theorem single_flight_witness :
    (settleSuccess ⟨"newA", "newR", 20, 30⟩
      (runArrivals 7 [1, 2, 3] (initState ⟨"oldA", "oldR", 5, 10⟩))).networkCalls = 1 ∧
    (1, RefreshResult.token "newA") ∈
      (settleSuccess ⟨"newA", "newR", 20, 30⟩
        (runArrivals 7 [1, 2, 3] (initState ⟨"oldA", "oldR", 5, 10⟩))).resolved := by
  have h := single_flight ⟨"oldA", "oldR", 5, 10⟩ ⟨"newA", "newR", 20, 30⟩ 7 [1, 2, 3]
    (by decide) (by decide) (by decide)
  exact ⟨h.1, h.2.2 1 (by decide)⟩

/-- C3: logout wins the race against an in-flight renewal.  If logout
happens after the leader started the renewal and before it settles, a late
successful renewal does not repopulate the Credential Store, and every
awaiting follower resumes Unauthenticated. -/
theorem logout_wins (c newCred : Credential) (now : Nat) (callers : List Nat)
    (hne : callers ≠ []) (h1 : c.accessExpiry ≤ now) (h2 : now < c.refreshExpiry) :
    (settleSuccess newCred (doLogout (runArrivals now callers (initState c)))).cred = none ∧
    ∀ i ∈ callers,
      (i, RefreshResult.unauthenticated) ∈
        (settleSuccess newCred (doLogout (runArrivals now callers (initState c)))).resolved := by
  obtain ⟨a, rest, rfl⟩ : ∃ a rest, callers = a :: rest := by
    cases callers with
    | nil => exact absurd rfl hne
    | cons a rest => exact ⟨a, rest, rfl⟩
  have hstep : runArrivals now (a :: rest) (initState c)
      = runArrivals now rest (arrive now a (initState c)) := by
    simp [runArrivals, List.foldl_cons]
  have hlead : arrive now a (initState c) =
      ({ cred := some c, inFlight := true, waiters := [a], networkCalls := 1,
         loggedOut := false, resolved := [] } : CoordState) := by
    rw [arrive_leader now a (initState c) c rfl h1 h2 rfl]
    rfl
  have hrun : runArrivals now rest
      ({ cred := some c, inFlight := true, waiters := [a], networkCalls := 1,
         loggedOut := false, resolved := [] } : CoordState) =
      ({ cred := some c, inFlight := true, waiters := rest.reverse ++ [a], networkCalls := 1,
         loggedOut := false, resolved := [] } : CoordState) := by
    rw [runArrivals_followers now rest _ c rfl h1 h2 rfl]
  rw [hstep, hlead, hrun]
  refine ⟨rfl, ?_⟩
  intro i hi
  have hmem : i ∈ rest.reverse ++ [a] := by
    rcases List.mem_cons.mp hi with h | h
    · exact List.mem_append.mpr (Or.inr (by simp [h]))
    · exact List.mem_append.mpr (Or.inl (List.mem_reverse.mpr h))
  show (i, RefreshResult.unauthenticated) ∈
    (rest.reverse ++ [a]).map (fun w => (w, RefreshResult.unauthenticated)) ++ []
  exact List.mem_append.mpr (Or.inl (List.mem_map_of_mem _ hmem))

/-- Witness for C3 at a concrete input. -/
theorem logout_wins_witness :
    (settleSuccess ⟨"newA", "newR", 20, 30⟩
      (doLogout (runArrivals 7 [1, 2] (initState ⟨"oldA", "oldR", 5, 10⟩)))).cred = none ∧
    (2, RefreshResult.unauthenticated) ∈
      (settleSuccess ⟨"newA", "newR", 20, 30⟩
        (doLogout (runArrivals 7 [1, 2] (initState ⟨"oldA", "oldR", 5, 10⟩)))).resolved := by
  have h := logout_wins ⟨"oldA", "oldR", 5, 10⟩ ⟨"newA", "newR", 20, 30⟩ 7 [1, 2]
    (by decide) (by decide) (by decide)
  exact ⟨h.1, h.2 2 (by decide)⟩

lemma routeAuths_not_mem (m : List (String × List String)) (code R q : String)
    (honly : ∀ p ∈ m, code ∈ p.2 ↔ p.1 = R) (hq : q ≠ R) :
    code ∉ routeAuths m q := by
  induction m with
  | nil => simp [routeAuths]
  | cons p rest ih =>
    obtain ⟨r, cs⟩ := p
    by_cases hr : r = q
    · intro hmem
      rw [routeAuths, if_pos hr] at hmem
      have := (honly (r, cs) (List.mem_cons_self _ _)).mp hmem
      exact hq (hr ▸ this)
    · intro hmem
      rw [routeAuths, if_neg hr] at hmem
      exact ih (fun p hp => honly p (List.mem_cons_of_mem _ hp)) hmem

lemma routeAuths_mem (m : List (String × List String)) (code R : String)
    (honly : ∀ p ∈ m, code ∈ p.2 ↔ p.1 = R) (hR : R ∈ m.map Prod.fst) :
    code ∈ routeAuths m R := by
  induction m with
  | nil => simp at hR
  | cons p rest ih =>
    obtain ⟨r, cs⟩ := p
    by_cases hr : r = R
    · rw [routeAuths, if_pos hr]
      exact (honly (r, cs) (List.mem_cons_self _ _)).mpr hr
    · rw [routeAuths, if_neg hr]
      have hR' : R ∈ rest.map Prod.fst := by
        rcases List.mem_map.mp hR with ⟨q, hq, hfst⟩
        rcases List.mem_cons.mp hq with h | h
        · subst h; exact absurd hfst hr
        · exact List.mem_map.mpr ⟨q, h, hfst⟩
      exact ih (fun p hp => honly p (List.mem_cons_of_mem _ hp)) hR'

/-- C2: capability scoping.  If a permission code is granted only under a
single route R (every per-route grant set that contains the code belongs
to R) and the code is in the full permission list, then hasAuth answers
true exactly while the active route is R, while hasGlobalAuth answers true
independent of the active route. -/
theorem capability_scoping (cs : CapabilitySet) (code R : String)
    (honly : ∀ p ∈ cs.defaultAuthsByRoute, code ∈ p.2 ↔ p.1 = R)
    (hR : R ∈ cs.defaultAuthsByRoute.map Prod.fst)
    (hglob : code ∈ cs.permissions) :
    hasAuth cs R code = true ∧
    (∀ q, q ≠ R → hasAuth cs q code = false) ∧
    (∀ _ : String, hasGlobalAuth cs code = true) := by
  refine ⟨?_, ?_, ?_⟩
  · exact decide_eq_true_eq.mpr (routeAuths_mem cs.defaultAuthsByRoute code R honly hR)
  · intro q hq
    exact decide_eq_false_iff_not.mpr (routeAuths_not_mem cs.defaultAuthsByRoute code R q honly hq)
  · intro _
    exact decide_eq_true_eq.mpr hglob

/-- Witness for C2 at the concrete scenario of the spec: the code
user:delete is granted only under SystemUser; hasAuth is true at
SystemUser, false at SystemNotice, and hasGlobalAuth is true. -/
theorem capability_scoping_witness :
    hasAuth ⟨["admin"], ["user:delete"],
      [("SystemUser", ["user:delete"]), ("SystemNotice", ["notice:list"])]⟩
      "SystemUser" "user:delete" = true ∧
    hasAuth ⟨["admin"], ["user:delete"],
      [("SystemUser", ["user:delete"]), ("SystemNotice", ["notice:list"])]⟩
      "SystemNotice" "user:delete" = false ∧
    hasGlobalAuth ⟨["admin"], ["user:delete"],
      [("SystemUser", ["user:delete"]), ("SystemNotice", ["notice:list"])]⟩
      "user:delete" = true := by
  have h := capability_scoping
    ⟨["admin"], ["user:delete"],
      [("SystemUser", ["user:delete"]), ("SystemNotice", ["notice:list"])]⟩
    "user:delete" "SystemUser" (by decide) (by decide) (by decide)
  exact ⟨h.1, h.2.1 "SystemNotice" (by decide), h.2.2 "SystemNotice"⟩

/-- C9: the auth directive is a structural gate.  For a mounted element
carrying a non-empty permission code, the element is removed from its
parent children exactly when hasAuth answers false, and no error is
thrown. -/
theorem auth_directive_gates (hasA : String → Bool) (value : String) (el : Nat)
    (siblings : List Nat) (hv : value ≠ "") (hmem : el ∈ siblings)
    (hnd : siblings.Nodup) :
    (el ∉ (authMounted hasA value el siblings).1 ↔ hasA value = false) ∧
    (authMounted hasA value el siblings).2 = none := by
  rw [authMounted, if_pos hv]
  constructor
  · cases h : hasA value with
    | false =>
      simp only [if_neg (by simp [h] : ¬ hasA value = true)]
      simp only [h, iff_true]
      exact hnd.not_mem_erase
    | true =>
      simp only [if_pos h]
      simp [hmem]
  · rfl

/-- Witness for C9 at a concrete input: element 1 inside parent [1, 2],
with a capability function denying the code btn.add. -/
theorem auth_directive_gates_witness :
    (1 ∉ (authMounted (fun _ => false) "btn.add" 1 [1, 2]).1 ↔
      (fun _ : String => false) "btn.add" = false) ∧
    (authMounted (fun _ => false) "btn.add" 1 [1, 2]).2 = none :=
  auth_directive_gates (fun _ => false) "btn.add" 1 [1, 2]
    (by decide) (by decide) (by decide)

/-- C10: mounting the auth directive with an absent (empty, falsy) binding
value throws an Error and leaves the DOM unchanged. -/
theorem auth_directive_empty_throws (hasA : String → Bool) (el : Nat)
    (siblings : List Nat) :
    authMounted hasA "" el siblings =
      (siblings, some "[Directive: auth]: need auths!") := by
  rw [authMounted, if_neg (by simp)]

/-! Permutation and ordering facts about the stable sibling sort. -/

lemma insertRank_perm (n : MenuNode) (l : List MenuNode) :
    (insertRank n l).Perm (n :: l) := by
  induction l with
  | nil => exact List.Perm.refl _
  | cons m ms ih =>
    by_cases h : m.rank < n.rank
    · rw [insertRank, if_pos h]
      exact (ih.cons m).trans (List.Perm.swap n m ms)
    · rw [insertRank, if_neg h]

lemma sortByRank_perm (l : List MenuNode) : (sortByRank l).Perm l := by
  induction l with
  | nil => exact List.Perm.refl _
  | cons n ns ih =>
    rw [sortByRank]
    exact (insertRank_perm n (sortByRank ns)).trans (ih.cons n)

lemma mem_sortByRank (l : List MenuNode) (x : MenuNode) :
    x ∈ sortByRank l ↔ x ∈ l :=
  (sortByRank_perm l).mem_iff

lemma insertRank_sorted (n : MenuNode) (l : List MenuNode)
    (h : l.Pairwise (fun a b => a.rank ≤ b.rank)) :
    (insertRank n l).Pairwise (fun a b => a.rank ≤ b.rank) := by
  induction l with
  | nil => simp [insertRank]
  | cons m ms ih =>
    rcases List.pairwise_cons.mp h with ⟨hm, hms⟩
    by_cases hr : m.rank < n.rank
    · rw [insertRank, if_pos hr]
      refine List.pairwise_cons.mpr ⟨?_, ih hms⟩
      intro x hx
      rcases List.mem_cons.mp ((insertRank_perm n ms).mem_iff.mp hx) with hxn | hxm
      · exact hxn ▸ Nat.le_of_lt hr
      · exact hm x hxm
    · rw [insertRank, if_neg hr]
      refine List.pairwise_cons.mpr ⟨?_, h⟩
      intro x hx
      rcases List.mem_cons.mp hx with hxm | hxm
      · exact hxm ▸ Nat.le_of_not_lt hr
      · exact Nat.le_trans (Nat.le_of_not_lt hr) (hm x hxm)

lemma sortByRank_sorted (l : List MenuNode) :
    (sortByRank l).Pairwise (fun a b => a.rank ≤ b.rank) := by
  induction l with
  | nil => simp [sortByRank]
  | cons n ns ih => exact insertRank_sorted n (sortByRank ns) ih

lemma mem_deepList (L : List RouteEntry) (x : RouteEntry) :
    x ∈ deepList L ↔ ∃ e, e ∈ L ∧ x ∈ deepOf e := by
  induction L with
  | nil => simp [deepList]
  | cons e es ih =>
    simp only [deepList, List.mem_append, ih, List.mem_cons]
    constructor
    · rintro (h | ⟨f, hf, hx⟩)
      · exact ⟨e, Or.inl rfl, h⟩
      · exact ⟨f, Or.inr hf, hx⟩
    · rintro ⟨f, hf | hf, hx⟩
      · exact Or.inl (hf ▸ hx)
      · exact Or.inr ⟨f, hf, hx⟩

lemma mem_deepOf (e x : RouteEntry) :
    x ∈ deepOf e ↔ x = e ∨ x ∈ deepList e.children := by
  cases e with
  | mk n p r rd a c => simp [deepOf, RouteEntry.children]

lemma buildSub_shape (all : List MenuNode) (fuel : Nat) (n : MenuNode) (e : RouteEntry)
    (h : buildSub all (fuel + 1) n = some e) :
    e.name = n.name ∧ e.redirect = headName e.children ∧
    ∀ y ∈ e.children, ∃ m, m ∈ navChildren all n.id ∧ buildSub all fuel m = some y := by
  cases hm : n.menuType with
  | permission =>
    rw [buildSub, hm] at h
    exact absurd h (by simp)
  | menu =>
    rw [buildSub, hm] at h
    obtain rfl := Option.some.inj h
    refine ⟨rfl, rfl, ?_⟩
    intro y hy
    exact List.mem_filterMap.mp hy
  | directory =>
    rw [buildSub, hm] at h
    cases hcs : (navChildren all n.id).filterMap (buildSub all fuel) with
    | nil => rw [hcs] at h; exact absurd h (by simp)
    | cons c cs =>
      rw [hcs] at h
      obtain rfl := Option.some.inj h
      refine ⟨rfl, rfl, ?_⟩
      intro y hy
      have : y ∈ (navChildren all n.id).filterMap (buildSub all fuel) := by
        rw [hcs]; exact hy
      exact List.mem_filterMap.mp this

lemma buildSub_redirect_inv (all : List MenuNode) :
    ∀ fuel n e, buildSub all fuel n = some e →
      ∀ x ∈ deepOf e, x.redirect = headName x.children := by
  intro fuel
  induction fuel with
  | zero => intro n e h; exact absurd h (by simp [buildSub])
  | succ fuel ih =>
    intro n e h x hx
    obtain ⟨_, hred, hch⟩ := buildSub_shape all fuel n e h
    rcases (mem_deepOf e x).mp hx with rfl | hx'
    · exact hred
    · rcases (mem_deepList _ x).mp hx' with ⟨y, hy, hxy⟩
      rcases hch y hy with ⟨m, _, hm⟩
      exact ih m y hm x hxy

lemma derive_redirect_inv (all : List MenuNode) :
    ∀ e ∈ deepList (derive all), e.redirect = headName e.children := by
  intro e he
  rcases (mem_deepList _ e).mp he with ⟨y, hy, hey⟩
  rcases List.mem_filterMap.mp hy with ⟨m, _, hbm⟩
  exact buildSub_redirect_inv all _ m y hbm e hey

/-- C5: the concrete scenario builds the System directory with default
redirect SystemUser and children ordered SystemUser before SystemDept,
and in general every derived entry has as default redirect the name of
the first entry of its ordered child list, which is its first navigable
descendant in the rank-ordered depth-first traversal (entries without
children have no redirect). -/
theorem default_redirect_spec :
    build [demoSystem, demoUser, demoDept] staticRoutes =
      staticRoutes ++
        [RouteEntry.mk "System" "/system" 1 (some "SystemUser") []
          [RouteEntry.mk "SystemUser" "/system/user" 1 none [] [],
           RouteEntry.mk "SystemDept" "/system/dept" 2 none [] []]] ∧
    ∀ all : List MenuNode, ∀ e ∈ deepList (derive all), e.redirect = headName e.children :=
  ⟨rfl, derive_redirect_inv⟩

/-- Witness for the general conjunct of C5 at the concrete scenario. -/
theorem default_redirect_spec_witness :
    (RouteEntry.mk "System" "/system" 1 (some "SystemUser") []
      [RouteEntry.mk "SystemUser" "/system/user" 1 none [] [],
       RouteEntry.mk "SystemDept" "/system/dept" 2 none [] []]).redirect =
    headName (RouteEntry.mk "System" "/system" 1 (some "SystemUser") []
      [RouteEntry.mk "SystemUser" "/system/user" 1 none [] [],
       RouteEntry.mk "SystemDept" "/system/dept" 2 none [] []]).children := by
  refine default_redirect_spec.2 [demoSystem, demoUser, demoDept] _ ?_
  have h : deepList (derive [demoSystem, demoUser, demoDept]) =
      [RouteEntry.mk "System" "/system" 1 (some "SystemUser") []
        [RouteEntry.mk "SystemUser" "/system/user" 1 none [] [],
         RouteEntry.mk "SystemDept" "/system/dept" 2 none [] []],
       RouteEntry.mk "SystemUser" "/system/user" 1 none [] [],
       RouteEntry.mk "SystemDept" "/system/dept" 2 none [] []] := rfl
  rw [h]
  exact List.mem_cons_self _ _

lemma buildSub_none_unreach (all : List MenuNode) :
    ∀ fuel n, reachesMenu all fuel n = false → buildSub all fuel n = none := by
  intro fuel
  induction fuel with
  | zero => intro n _; rfl
  | succ fuel ih =>
    intro n hn
    rw [reachesMenu] at hn
    have hsplit := Bool.or_eq_false_iff.mp hn
    have hnm : n.menuType ≠ MenuType.menu := by
      intro h
      rw [h] at hsplit
      simp at hsplit
    have hcs : (navChildren all n.id).filterMap (buildSub all fuel) = [] := by
      rw [List.filterMap_eq_nil_iff]
      intro m hm
      refine ih m ?_
      have := List.any_eq_false.mp hsplit.2 m hm
      simpa using this
    cases hm2 : n.menuType with
    | menu => exact absurd hm2 hnm
    | permission => simp [buildSub, hm2]
    | directory => simp [buildSub, hm2, hcs]

lemma reachesMenu_mono (all : List MenuNode) :
    ∀ f1 n f2, f1 ≤ f2 → reachesMenu all f1 n = true → reachesMenu all f2 n = true := by
  intro f1
  induction f1 with
  | zero =>
    intro n f2 _ h
    cases f2 with
    | zero => exact h
    | succ f =>
      rw [reachesMenu]
      have hb : (n.menuType == MenuType.menu) = true := h
      simp [hb]
  | succ f1 ih =>
    intro n f2 hle h
    cases f2 with
    | zero => exact absurd hle (Nat.not_succ_le_zero f1)
    | succ f2 =>
      rw [reachesMenu] at h ⊢
      rcases Bool.or_eq_true_iff.mp h with hb | hany
      · simp [hb]
      · rcases List.any_eq_true.mp hany with ⟨m, hm, hrm⟩
        exact Bool.or_eq_true_iff.mpr (Or.inr (List.any_eq_true.mpr
          ⟨m, hm, ih m f2 (Nat.le_of_succ_le_succ hle) hrm⟩))

lemma navChildren_subset (all : List MenuNode) (pid : Nat) (m : MenuNode)
    (h : m ∈ navChildren all pid) : m ∈ all := by
  rw [navChildren, mem_sortByRank] at h
  exact (List.mem_filter.mp h).1

lemma buildSub_deep_source (all : List MenuNode) :
    ∀ fuel n e x, buildSub all fuel n = some e → x ∈ deepOf e →
      ∃ m f, (m = n ∨ m ∈ all) ∧ f ≤ fuel ∧ buildSub all f m = some x := by
  intro fuel
  induction fuel with
  | zero => intro n e x h _; exact absurd h (by simp [buildSub])
  | succ fuel ih =>
    intro n e x h hx
    rcases (mem_deepOf e x).mp hx with rfl | hx'
    · exact ⟨n, fuel + 1, Or.inl rfl, Nat.le_refl _, h⟩
    · obtain ⟨-, -, hch⟩ := buildSub_shape all fuel n e h
      rcases (mem_deepList _ x).mp hx' with ⟨y, hy, hxy⟩
      rcases hch y hy with ⟨m', hm', hbm'⟩
      rcases ih m' y x hbm' hxy with ⟨m, f, hmor, hf, hb⟩
      refine ⟨m, f, ?_, Nat.le_succ_of_le hf, hb⟩
      rcases hmor with rfl | hm
      · exact Or.inr (navChildren_subset all n.id m hm')
      · exact Or.inr hm

lemma buildSub_name (all : List MenuNode) (fuel : Nat) (n : MenuNode) (e : RouteEntry)
    (h : buildSub all fuel n = some e) : e.name = n.name := by
  cases fuel with
  | zero => exact absurd h (by simp [buildSub])
  | succ fuel => exact (buildSub_shape all fuel n e h).1

/-- C7: unreachable pruning.  A directory-type node below which no chain
of navigable children reaches a menu-type node (in particular a directory
whose only children are permission-type nodes) contributes no entry to the
derived Route Table: no entry at any depth carries its name.  The name
uniqueness hypothesis pins the node down among the inputs. -/
theorem unreachable_pruned (all : List MenuNode) (n : MenuNode)
    (hdir : n.menuType = MenuType.directory)
    (hun : reachesMenu all all.length n = false)
    (huniq : ∀ m ∈ all, m.name = n.name → m = n) :
    ∀ e ∈ deepList (derive all), e.name ≠ n.name := by
  intro e he heq
  rcases (mem_deepList _ e).mp he with ⟨y, hy, hey⟩
  rcases List.mem_filterMap.mp hy with ⟨r, hr, hbr⟩
  have hrall : r ∈ all := by
    rw [rootNodes, mem_sortByRank] at hr
    exact (List.mem_filter.mp hr).1
  rcases buildSub_deep_source all all.length r y e hbr hey with ⟨m, f, hmor, hf, hb⟩
  have hmall : m ∈ all := by
    rcases hmor with rfl | h
    · exact hrall
    · exact h
  have hmn : m = n := huniq m hmall ((buildSub_name all f m e hb).symm.trans heq)
  subst hmn
  have hfn : reachesMenu all f m = false := by
    cases hc : reachesMenu all f m
    · rfl
    · exact absurd (reachesMenu_mono all f m all.length hf hc) (by simp [hun])
  exact absurd hb (by simp [buildSub_none_unreach all f m hfn])

/-- Witness for C7: a directory whose only child is a permission node is
absent from the table, while an unrelated menu node still appears. -/
theorem unreachable_pruned_witness :
    (RouteEntry.mk "Home" "/home" 2 none [] []).name ≠ "Tools" := by
  have hd : deepList (derive [toolsDir, toolsPerm, homeMenu]) =
      [RouteEntry.mk "Home" "/home" 2 none [] []] := rfl
  refine unreachable_pruned [toolsDir, toolsPerm, homeMenu] toolsDir rfl
    (by decide) (by decide) _ ?_
  rw [hd]
  exact List.mem_cons_self _ _

/-- C6 (amended): orphan recovery.  A navigable node whose declared parent
is absent from the input set and for which the builder produces an entry
(it is not itself pruned as unreachable) is attached at the forest root of
the derived table rather than dropped. -/
theorem orphan_attached_at_root (all : List MenuNode) (n : MenuNode) (p : Nat)
    (e : RouteEntry) (hmem : n ∈ all) (hnav : isNav n = true)
    (hp : n.parentId = some p) (hmiss : ∀ m ∈ all, m.id ≠ p)
    (hbuilt : buildSub all all.length n = some e) :
    e ∈ derive all := by
  have hroot : isRoot all n = true := by
    simp only [isRoot, hp]
    have hany : all.any (fun x => x.id == p) = false := by
      rw [List.any_eq_false]
      intro x hx
      simp [hmiss x hx]
    rw [hany]
    rfl
  have hin : n ∈ rootNodes all := by
    rw [rootNodes, mem_sortByRank]
    exact List.mem_filter.mpr ⟨hmem, by rw [hnav, hroot]; rfl⟩
  exact List.mem_filterMap.mpr ⟨n, hin, hbuilt⟩

/-- Witness for the amended C6: a menu-type orphan pointing at the missing
parent 99 appears at the root of the derived table. -/
theorem orphan_attached_at_root_witness :
    RouteEntry.mk "Lost" "/lost" 1 none [] [] ∈ derive [lostMenu] :=
  orphan_attached_at_root [lostMenu] lostMenu 99
    (RouteEntry.mk "Lost" "/lost" 1 none [] [])
    (by decide) (by decide) (by decide) (by decide) rfl

/-- Counterexample to C6 as stated: a navigable (directory-type) orphan
with no navigable descendant is pruned, so it is dropped from the table
rather than attached at the forest root. -/
theorem orphan_root_counterexample :
    isNav lostDir = true ∧ lostDir.parentId = some 99 ∧
    [lostDir].map MenuNode.id = [1] ∧
    derive [lostDir] = [] :=
  ⟨rfl, rfl, rfl, rfl⟩

/-! Permutation invariance of the builder under distinct sibling ranks. -/

lemma any_eq_of_perm {α : Type} (l1 l2 : List α) (hp : l1.Perm l2) (f : α → Bool) :
    l1.any f = l2.any f := by
  cases h : l2.any f
  · rw [List.any_eq_false] at h ⊢
    intro x hx
    exact h x (hp.mem_iff.mp hx)
  · rw [List.any_eq_true] at h ⊢
    rcases h with ⟨x, hx, hfx⟩
    exact ⟨x, hp.mem_iff.mpr hx, hfx⟩

lemma sortByRank_eq_of_perm (l1 l2 : List MenuNode) (hp : l1.Perm l2)
    (hnd : l1.Nodup) (hdr : ∀ a ∈ l1, ∀ b ∈ l1, a.rank = b.rank → a = b) :
    sortByRank l1 = sortByRank l2 := by
  have hperm : (sortByRank l1).Perm (sortByRank l2) :=
    ((sortByRank_perm l1).trans hp).trans (sortByRank_perm l2).symm
  have hnd1 : (sortByRank l1).Nodup := (sortByRank_perm l1).nodup_iff.mpr hnd
  have hnd2 : (sortByRank l2).Nodup := hperm.nodup_iff.mp hnd1
  have hmem1 : ∀ x ∈ sortByRank l1, x ∈ l1 := fun x hx => (mem_sortByRank l1 x).mp hx
  have hmem2 : ∀ x ∈ sortByRank l2, x ∈ l1 := fun x hx =>
    hp.mem_iff.mpr ((mem_sortByRank l2 x).mp hx)
  have hs1 : (sortByRank l1).Pairwise (fun a b => a.rank < b.rank) := by
    refine List.Pairwise.imp_of_mem ?_ ((sortByRank_sorted l1).and hnd1)
    intro a b ha hb hab
    refine Nat.lt_of_le_of_ne hab.1 ?_
    intro hr
    exact hab.2 (hdr a (hmem1 a ha) b (hmem1 b hb) hr)
  have hs2 : (sortByRank l2).Pairwise (fun a b => a.rank < b.rank) := by
    refine List.Pairwise.imp_of_mem ?_ ((sortByRank_sorted l2).and hnd2)
    intro a b ha hb hab
    refine Nat.lt_of_le_of_ne hab.1 ?_
    intro hr
    exact hab.2 (hdr a (hmem2 a ha) b (hmem2 b hb) hr)
  haveI : IsAntisymm MenuNode (fun a b => a.rank < b.rank) :=
    ⟨fun a b ha hb => absurd (Nat.lt_trans ha hb) (Nat.lt_irrefl _)⟩
  exact List.eq_of_perm_of_sorted hperm hs1 hs2

lemma isRoot_eq_of_perm (l1 l2 : List MenuNode) (hp : l1.Perm l2) (m : MenuNode) :
    isRoot l1 m = isRoot l2 m := by
  cases h : m.parentId with
  | none => simp [isRoot, h]
  | some p => simp [isRoot, h, any_eq_of_perm l1 l2 hp (fun x => x.id == p)]

lemma rootNodes_eq_of_perm (l1 l2 : List MenuNode) (hp : l1.Perm l2)
    (hnd : l1.Nodup) (hdr : ∀ a ∈ l1, ∀ b ∈ l1, a.rank = b.rank → a = b) :
    rootNodes l1 = rootNodes l2 := by
  rw [rootNodes, rootNodes]
  have hfil : l1.filter (fun m => isNav m && isRoot l1 m) =
      l1.filter (fun m => isNav m && isRoot l2 m) := by
    apply List.filter_congr
    intro m _
    rw [isRoot_eq_of_perm l1 l2 hp m]
  rw [hfil]
  apply sortByRank_eq_of_perm
  · exact hp.filter _
  · exact hnd.filter _
  · intro a ha b hb hr
    exact hdr a (List.mem_of_mem_filter ha) b (List.mem_of_mem_filter hb) hr

lemma navChildren_eq_of_perm (l1 l2 : List MenuNode) (hp : l1.Perm l2)
    (hnd : l1.Nodup) (hdr : ∀ a ∈ l1, ∀ b ∈ l1, a.rank = b.rank → a = b)
    (pid : Nat) : navChildren l1 pid = navChildren l2 pid := by
  rw [navChildren, navChildren]
  apply sortByRank_eq_of_perm
  · exact hp.filter _
  · exact hnd.filter _
  · intro a ha b hb hr
    exact hdr a (List.mem_of_mem_filter ha) b (List.mem_of_mem_filter hb) hr

lemma authCodes_eq_of_perm (l1 l2 : List MenuNode) (hp : l1.Perm l2)
    (hnd : l1.Nodup) (hdr : ∀ a ∈ l1, ∀ b ∈ l1, a.rank = b.rank → a = b)
    (pid : Nat) : authCodes l1 pid = authCodes l2 pid := by
  rw [authCodes, authCodes, permChildren, permChildren]
  have hsort : sortByRank (l1.filter
        (fun m => m.menuType == MenuType.permission && m.parentId == some pid)) =
      sortByRank (l2.filter
        (fun m => m.menuType == MenuType.permission && m.parentId == some pid)) := by
    apply sortByRank_eq_of_perm
    · exact hp.filter _
    · exact hnd.filter _
    · intro a ha b hb hr
      exact hdr a (List.mem_of_mem_filter ha) b (List.mem_of_mem_filter hb) hr
  rw [hsort]

lemma buildSub_eq_of_perm (l1 l2 : List MenuNode) (hp : l1.Perm l2)
    (hnd : l1.Nodup) (hdr : ∀ a ∈ l1, ∀ b ∈ l1, a.rank = b.rank → a = b) :
    ∀ fuel n, buildSub l1 fuel n = buildSub l2 fuel n := by
  intro fuel
  induction fuel with
  | zero => intro n; rfl
  | succ fuel ih =>
    intro n
    have hfun : buildSub l1 fuel = buildSub l2 fuel := funext ih
    simp only [buildSub]
    rw [navChildren_eq_of_perm l1 l2 hp hnd hdr n.id,
      authCodes_eq_of_perm l1 l2 hp hnd hdr n.id, hfun]

lemma derive_eq_of_perm (l1 l2 : List MenuNode) (hp : l1.Perm l2)
    (hnd : l1.Nodup) (hdr : ∀ a ∈ l1, ∀ b ∈ l1, a.rank = b.rank → a = b) :
    derive l1 = derive l2 := by
  rw [derive, derive, rootNodes_eq_of_perm l1 l2 hp hnd hdr, hp.length_eq,
    funext (buildSub_eq_of_perm l1 l2 hp hnd hdr l2.length)]

/-- C4 (amended): route table determinism.  Building the Route Table from
two orderings of the same duplicate-free node set in which no two nodes
share a rank yields identical ordered tables.  With rank ties the stable
tie-break follows input order, so full permutation invariance fails (see
the counterexample). -/
theorem route_table_deterministic (l1 l2 : List MenuNode) (statics : List RouteEntry)
    (hp : l1.Perm l2) (hnd : l1.Nodup)
    (hdr : ∀ a ∈ l1, ∀ b ∈ l1, a.rank = b.rank → a = b) :
    build l1 statics = build l2 statics := by
  rw [build, build, mergeByPath, mergeByPath, derive_eq_of_perm l1 l2 hp hnd hdr]

/-- Counterexample to C4 as stated: two sibling menu nodes with equal rank
presented in the two possible input orders are permutations of the same
node set, yet the two built tables differ (the rank tie is broken by input
order), so build is not invariant under permutation of the input list. -/
theorem route_table_perm_counterexample :
    [tieA, tieB].Perm [tieB, tieA] ∧
    (derive [tieA, tieB]).map RouteEntry.name = ["A", "B"] ∧
    (derive [tieB, tieA]).map RouteEntry.name = ["B", "A"] ∧
    build [tieA, tieB] staticRoutes ≠ build [tieB, tieA] staticRoutes := by
  refine ⟨List.Perm.swap tieB tieA [], rfl, rfl, ?_⟩
  intro h
  have hmap := congrArg (fun L => List.map RouteEntry.name L) h
  have h1 : (build [tieA, tieB] staticRoutes).map RouteEntry.name =
      ["Login", "", "Empty", "AccountSettings", "A", "B"] := rfl
  have h2 : (build [tieB, tieA] staticRoutes).map RouteEntry.name =
      ["Login", "", "Empty", "AccountSettings", "B", "A"] := rfl
  simp only at hmap
  rw [h1, h2] at hmap
  exact absurd hmap (by decide)

/-- Witness for the amended C4 at concrete inputs with distinct ranks. -/
theorem route_table_deterministic_witness :
    build [tieA, homeMenu] staticRoutes = build [homeMenu, tieA] staticRoutes :=
  route_table_deterministic [tieA, homeMenu] [homeMenu, tieA] staticRoutes
    (by decide) (by decide) (by decide)

/-- Counterexample to C8 as stated: no path of the embedded static route
array of remaining.ts is an error page, and the array contains the empty
full-screen page /empty, which is none of login, redirect wildcard, error
page or account settings. -/
theorem static_routes_counterexample :
    ((deepList staticRoutes).map RouteEntry.path).all (fun p => !(errorish p)) = true ∧
    "/empty" ∈ (deepList staticRoutes).map RouteEntry.path ∧
    "/empty" ∉ ["/login", "/redirect", "/redirect/:path(.*)", "/account-settings"] := by
  refine ⟨rfl, ?_, by decide⟩
  have h : (deepList staticRoutes).map RouteEntry.path =
      ["/login", "/redirect", "/redirect/:path(.*)", "/empty", "/account-settings"] := rfl
  rw [h]
  decide

lemma find_append_of_path_mem (l1 l2 : List RouteEntry) (p : String)
    (h : p ∈ l1.map RouteEntry.path) :
    (l1 ++ l2).find? (fun e => e.path == p) = l1.find? (fun e => e.path == p) := by
  induction l1 with
  | nil => simp at h
  | cons a as ih =>
    cases ha : (a.path == p) with
    | true =>
      rw [List.cons_append]
      simp [List.find?_cons, ha]
    | false =>
      have h' : p ∈ as.map RouteEntry.path := by
        rcases List.mem_map.mp h with ⟨e, he, hep⟩
        rcases List.mem_cons.mp he with rfl | he'
        · exact absurd (beq_iff_eq.mpr hep) (by simp [ha])
        · exact List.mem_map.mpr ⟨e, he', hep⟩
      rw [List.cons_append]
      simp only [List.find?_cons, ha]
      exact ih h'

/-- C8 (amended): the fixed static routes merged into every Route Table
are exactly the login page, the redirect parent with its wildcard child,
the empty full-screen page, and account settings (no error pages are in
this array), and on any path collision with a backend-derived route the
lookup of that path in the merged table yields the static route. -/
theorem static_routes_precedence :
    (deepList staticRoutes).map RouteEntry.path =
      ["/login", "/redirect", "/redirect/:path(.*)", "/empty", "/account-settings"] ∧
    ∀ derived : List RouteEntry, ∀ p : String,
      p ∈ staticRoutes.map RouteEntry.path →
      (mergeByPath staticRoutes derived).find? (fun e => e.path == p) =
        staticRoutes.find? (fun e => e.path == p) := by
  refine ⟨rfl, ?_⟩
  intro derived p hmem
  rw [mergeByPath]
  exact find_append_of_path_mem staticRoutes _ p hmem

/-- Witness for C8 (amended): a backend route colliding on /login does not
shadow the static login route in the merged table. -/
theorem static_routes_precedence_witness :
    (mergeByPath staticRoutes [RouteEntry.mk "Fake" "/login" 1 none [] []]).find?
      (fun e => e.path == "/login") =
    staticRoutes.find? (fun e => e.path == "/login") :=
  static_routes_precedence.2 [RouteEntry.mk "Fake" "/login" 1 none [] []] "/login"
    (by decide)

